import Mathlib

/-!
Verification of the RpiFanPwm temperature service (`src/service/src/temp.rs`).

The file embeds the two Rust functions `get_temp` and `get_pwm` shallowly:

* IEEE-754 binary32 (`f32`) values are modelled by `F32`: NaN, signed
  infinities, and finite values carried as exact rationals.  Arithmetic
  (`fsub`, `fmul`) rounds its exact rational result to nearest, ties to
  even, with the binary32 precision of 24 bits and minimum exponent -149,
  overflowing to infinity beyond the largest finite value — this is the
  rounding the hardware performs.  `fceil` is `f32::ceil`, `castU8` is
  Rust's saturating `as u8` cast, `fle`/`flt` are the IEEE comparisons
  (false on NaN).
* Byte strings (process output) are lists of naturals; `utf8Lossy` is
  `String::from_utf8_lossy`, `splitChar` is `str::split` on one character,
  `trimWs` is `str::trim`, and `parseF32` is `f32::from_str` (sign,
  inf/infinity/nan case-insensitively, or a decimal number with optional
  exponent, parsed exactly and then correctly rounded).
* The outcome of spawning the external `vcgencmd` process is a parameter
  of type `Except LaunchError ProcOutput`.
-/

unseal Rat.add Rat.sub Rat.mul Rat.inv Rat.ofScientific

/-- Two to an integer power, as an exact rational. -/
def pow2 (e : ℤ) : ℚ :=
  if 0 ≤ e then ((2 ^ e.toNat : ℕ) : ℚ) else 1 / ((2 ^ (-e).toNat : ℕ) : ℚ)

/-- Fuel-driven binary logarithm on naturals (structural recursion, so the
kernel can evaluate it). -/
def nlog2Aux : ℕ → ℕ → ℕ
  | 0, _ => 0
  | fuel + 1, n => if n ≤ 1 then 0 else nlog2Aux fuel (n / 2) + 1

/-- Floor of the binary logarithm of a natural number. -/
def nlog2 (n : ℕ) : ℕ := nlog2Aux n n

/-- Round a rational to the nearest integer, ties to even. -/
def roundQ (x : ℚ) : ℤ :=
  if x - (⌊x⌋ : ℚ) < 1 / 2 then ⌊x⌋
  else if 1 / 2 < x - (⌊x⌋ : ℚ) then ⌊x⌋ + 1
  else if ⌊x⌋ % 2 = 0 then ⌊x⌋ else ⌊x⌋ + 1

/-- Exponent e with `pow2 e ≤ |q| < pow2 (e+1)`, for `q ≠ 0`. -/
def findExp (q : ℚ) : ℤ :=
  let k : ℤ := (nlog2 q.num.natAbs : ℤ) - (nlog2 q.den : ℤ)
  if pow2 k ≤ |q| then k else k - 1

/-- Quantum exponent used by binary32 when rounding `q`: 24-bit significand,
clamped below at the subnormal quantum 2^(-149). -/
def expF32 (q : ℚ) : ℤ := max (findExp q - 23) (-149)

/-- Exact value of rounding `q` to binary32 precision (nearest, ties to
even), before the overflow check. -/
def roundVal (q : ℚ) : ℚ :=
  if q = 0 then 0 else (roundQ (q / pow2 (expF32 q)) : ℚ) * pow2 (expF32 q)

/-- Largest finite binary32 value, (2^24 - 1) * 2^104. -/
def maxF : ℚ := (2 ^ 24 - 1) * pow2 104

/-- Model of an `f32` value: NaN, a signed infinity, or a finite value
carried as the exact rational it denotes.  (Zero is unsigned in the model;
nothing in this program distinguishes -0.0 from +0.0.) -/
inductive F32 where
  | nan : F32
  | inf (neg : Bool) : F32
  | finite (val : ℚ) : F32
deriving DecidableEq

/-- Round an exact rational to a binary32 value, overflowing to infinity. -/
def roundF32 (q : ℚ) : F32 :=
  if maxF < roundVal q then F32.inf false
  else if roundVal q < -maxF then F32.inf true
  else F32.finite (roundVal q)

/-- Binary32 subtraction. -/
def fsub : F32 → F32 → F32
  | F32.nan, _ => F32.nan
  | _, F32.nan => F32.nan
  | F32.inf s1, F32.inf s2 => if s1 = s2 then F32.nan else F32.inf s1
  | F32.inf s, F32.finite _ => F32.inf s
  | F32.finite _, F32.inf s => F32.inf (!s)
  | F32.finite a, F32.finite b => roundF32 (a - b)

/-- Binary32 multiplication. -/
def fmul : F32 → F32 → F32
  | F32.nan, _ => F32.nan
  | _, F32.nan => F32.nan
  | F32.inf s1, F32.inf s2 => F32.inf (xor s1 s2)
  | F32.inf s, F32.finite q => if q = 0 then F32.nan else F32.inf (xor s (decide (q < 0)))
  | F32.finite q, F32.inf s => if q = 0 then F32.nan else F32.inf (xor s (decide (q < 0)))
  | F32.finite a, F32.finite b => roundF32 (a * b)

/-- Model of `f32::ceil` (exact on finite values, identity on NaN and
infinities). -/
def fceil : F32 → F32
  | F32.finite q => F32.finite ((⌈q⌉ : ℤ) : ℚ)
  | x => x

/-- IEEE `<=` comparison (false whenever an operand is NaN). -/
def fle : F32 → F32 → Bool
  | F32.finite a, F32.finite b => decide (a ≤ b)
  | F32.finite _, F32.inf s => !s
  | F32.inf s, F32.finite _ => s
  | F32.inf s1, F32.inf s2 => s1 || !s2
  | _, _ => false

/-- IEEE `<` comparison (false whenever an operand is NaN). -/
def flt : F32 → F32 → Bool
  | F32.finite a, F32.finite b => decide (a < b)
  | F32.finite _, F32.inf s => !s
  | F32.inf s, F32.finite _ => s
  | F32.inf s1, F32.inf s2 => s1 && !s2
  | _, _ => false

/-- Rust saturating cast `as u8`: truncate toward zero, clamp to [0, 255],
NaN to 0. -/
def castU8 : F32 → ℕ
  | F32.nan => 0
  | F32.inf s => if s then 0 else 255
  | F32.finite q => if q ≤ 0 then 0 else min 255 (Int.toNat ⌊q⌋)

/-- Embedding of `get_pwm` from `src/service/src/temp.rs`:

    if temp <= 40.0 { return 0 }
    if temp >= 60.0 { return 255 }
    ((temp - 40.0) * 12.75).ceil() as u8
-/
def get_pwm (temp : F32) : ℕ :=
  if fle temp (F32.finite 40) then 0
  else if fle (F32.finite 60) temp then 255
  else castU8 (fceil (fmul (fsub temp (F32.finite 40)) (F32.finite 12.75)))

/-- The rational `q` is exactly representable as a finite binary32 value:
an integer multiple of a power of two with at most 24 significant bits and
quantum at least 2^(-149).  (The magnitude bound is irrelevant for the
range this development works in.) -/
def IsReprQ (q : ℚ) : Prop :=
  ∃ n e : ℤ, q = (n : ℚ) * pow2 e ∧ n.natAbs < 2 ^ 24 ∧ -149 ≤ e

/-- The model value is a genuine `f32` datum: NaN, an infinity, or an
exactly representable finite value. -/
def F32.IsRepr : F32 → Prop
  | F32.finite q => IsReprQ q
  | _ => True

/-- Split a list of characters at every occurrence of `c`, mirroring Rust
`str::split(c)`: the result is always nonempty, and splitting the empty
string yields one empty segment. -/
def splitChar (c : ℕ) : List ℕ → List (List ℕ)
  | [] => [[]]
  | x :: xs =>
    if x = c then [] :: splitChar c xs
    else
      match splitChar c xs with
      | [] => [[x]]
      | seg :: rest => (x :: seg) :: rest

/-- Unicode white-space code points, as used by Rust `str::trim`. -/
def isWsRust (c : ℕ) : Bool :=
  c = 9 || c = 10 || c = 11 || c = 12 || c = 13 || c = 32 || c = 133 || c = 160 ||
  c = 5760 || (8192 ≤ c && c ≤ 8202) || c = 8232 || c = 8233 || c = 8239 ||
  c = 8287 || c = 12288

/-- Model of Rust `str::trim`: drop white space from both ends. -/
def trimWs (s : List ℕ) : List ℕ :=
  ((s.dropWhile isWsRust).reverse.dropWhile isWsRust).reverse

/-- UTF-8 continuation byte. -/
def isCont (b : ℕ) : Bool := 128 ≤ b && b < 192

/-- Valid second byte of a three-byte UTF-8 sequence with lead byte `b`
(excluding overlong encodings and surrogates). -/
def cont2ok (b b1 : ℕ) : Bool :=
  if b = 224 then 160 ≤ b1 && b1 < 192
  else if b = 237 then 128 ≤ b1 && b1 < 160
  else isCont b1

/-- Valid second byte of a four-byte UTF-8 sequence with lead byte `b`
(excluding overlong encodings and code points beyond U+10FFFF). -/
def cont3ok (b b1 : ℕ) : Bool :=
  if b = 240 then 144 ≤ b1 && b1 < 192
  else if b = 244 then 128 ≤ b1 && b1 < 144
  else isCont b1

/-- Model of `String::from_utf8_lossy`: decode UTF-8, replacing each
maximal invalid subpart by U+FFFD (65533), per the WHATWG policy Rust
implements.  Bytes come in as naturals, scalar values come out as
naturals. -/
def utf8Lossy : List ℕ → List ℕ
  | [] => []
  | b :: rest =>
    if b < 128 then b :: utf8Lossy rest
    else if b < 194 then 65533 :: utf8Lossy rest
    else if b < 224 then
      match rest with
      | b1 :: r =>
        if isCont b1 then ((b - 192) * 64 + (b1 - 128)) :: utf8Lossy r
        else 65533 :: utf8Lossy (b1 :: r)
      | [] => [65533]
    else if b < 240 then
      match rest with
      | b1 :: b2 :: r =>
        if cont2ok b b1 && isCont b2 then
          ((b - 224) * 4096 + (b1 - 128) * 64 + (b2 - 128)) :: utf8Lossy r
        else if cont2ok b b1 then 65533 :: utf8Lossy (b2 :: r)
        else 65533 :: utf8Lossy (b1 :: b2 :: r)
      | [b1] => if cont2ok b b1 then [65533] else 65533 :: utf8Lossy [b1]
      | [] => [65533]
    else if b < 245 then
      match rest with
      | b1 :: b2 :: b3 :: r =>
        if cont3ok b b1 && isCont b2 && isCont b3 then
          ((b - 240) * 262144 + (b1 - 128) * 4096 + (b2 - 128) * 64 + (b3 - 128)) ::
            utf8Lossy r
        else if cont3ok b b1 && isCont b2 then 65533 :: utf8Lossy (b3 :: r)
        else if cont3ok b b1 then 65533 :: utf8Lossy (b2 :: b3 :: r)
        else 65533 :: utf8Lossy (b1 :: b2 :: b3 :: r)
      | [b1, b2] =>
        if cont3ok b b1 && isCont b2 then [65533]
        else if cont3ok b b1 then 65533 :: utf8Lossy [b2]
        else 65533 :: utf8Lossy [b1, b2]
      | [b1] => if cont3ok b b1 then [65533] else 65533 :: utf8Lossy [b1]
      | [] => [65533]
    else 65533 :: utf8Lossy rest

/-- ASCII decimal digit. -/
def isDigitN (c : ℕ) : Bool := 48 ≤ c && c ≤ 57

/-- Lower-case an ASCII letter (Rust float parsing matches `inf`, `infinity`
and `nan` ASCII-case-insensitively). -/
def toLowerAscii (c : ℕ) : ℕ := if 65 ≤ c && c ≤ 90 then c + 32 else c

/-- Numeric value of a digit string (most significant first). -/
def digitsToNat (ds : List ℕ) : ℕ := ds.foldl (fun a c => 10 * a + (c - 48)) 0

/-- Consume an optional leading sign; `true` means negative. -/
def readSign : List ℕ → Bool × List ℕ
  | 43 :: r => (false, r)
  | 45 :: r => (true, r)
  | s => (false, s)

/-- Ten to an integer power, as an exact rational. -/
def tenPow (e : ℤ) : ℚ :=
  if 0 ≤ e then ((10 ^ e.toNat : ℕ) : ℚ) else 1 / ((10 ^ (-e).toNat : ℕ) : ℚ)

/-- Exact rational value of integer digits `ds1`, fraction digits `ds2`
and decimal exponent `e`. -/
def mkDec (ds1 ds2 : List ℕ) (e : ℤ) : ℚ :=
  ((digitsToNat (ds1 ++ ds2) : ℕ) : ℚ) / ((10 ^ ds2.length : ℕ) : ℚ) * tenPow e

/-- Parse the exponent suffix of a float literal: empty input means
exponent 0; otherwise `e`/`E`, an optional sign and at least one digit,
with nothing left over. -/
def readExp : List ℕ → Option ℤ
  | [] => some 0
  | c :: r =>
    if c = 101 || c = 69 then
      let sr := readSign r
      let ds := sr.2.takeWhile isDigitN
      let r3 := sr.2.dropWhile isDigitN
      if ds.isEmpty || !r3.isEmpty then none
      else some (if sr.1 then -(digitsToNat ds : ℤ) else (digitsToNat ds : ℤ))
    else none

/-- Parse the number part of a Rust float literal (after the sign):
`Digit+ | Digit+ . Digit* | Digit* . Digit+`, then an optional exponent,
consuming the whole input.  Returns the exact rational value. -/
def readDec (s : List ℕ) : Option ℚ :=
  let ds1 := s.takeWhile isDigitN
  match s.dropWhile isDigitN with
  | 46 :: r2 =>
    let ds2 := r2.takeWhile isDigitN
    let r3 := r2.dropWhile isDigitN
    if ds1.isEmpty && ds2.isEmpty then none
    else (readExp r3).map fun e => mkDec ds1 ds2 e
  | r1 =>
    if ds1.isEmpty then none
    else (readExp r1).map fun e => mkDec ds1 [] e

/-- Model of `f32::from_str` (`"48.3".parse::<f32>()`): an optional sign,
then `inf`, `infinity` or `nan` (ASCII-case-insensitively) or a decimal
number with optional exponent; the exact decimal value is correctly
rounded to binary32.  Returns `none` exactly when Rust returns `Err`. -/
def parseF32 (s : List ℕ) : Option F32 :=
  let sr := readSign s
  let rl := sr.2.map toLowerAscii
  if rl = [105, 110, 102] || rl = [105, 110, 102, 105, 110, 105, 116, 121] then
    some (F32.inf sr.1)
  else if rl = [110, 97, 110] then some F32.nan
  else
    match readDec sr.2 with
    | some q => some (roundF32 (if sr.1 then -q else q))
    | none => none

/-- Captured result of the spawned `vcgencmd measure_temp` process:
standard output, standard error and exit status.  The Rust code binds
`stdout` and discards `stderr` and `status` with `_` patterns. -/
structure ProcOutput where
  stdout : List ℕ
  stderr : List ℕ
  status : ℤ
deriving DecidableEq

/-- An OS-level failure to launch the external process, propagated by the
`?` on `Command::output()` (modelled by an opaque error code). -/
structure LaunchError where
  code : ℕ
deriving DecidableEq

deriving instance DecidableEq for Except

/-- Embedding of `get_temp` from `src/service/src/temp.rs`.  The outcome of
`Command::new("vcgencmd").arg("measure_temp").output()` is the parameter:
either a launch error (propagated by `?`) or the captured process output.

    let rate = String::from_utf8_lossy(&stdout)
        .split('=').next_back().unwrap_or("0'c")
        .split('\x27').next().unwrap_or("0")
        .trim().parse::<f32>().unwrap_or(0.0);
    Ok(rate)
-/
def get_temp (res : Except LaunchError ProcOutput) : Except LaunchError F32 :=
  match res with
  | Except.error e => Except.error e
  | Except.ok out =>
    let s1 := (splitChar 61 (utf8Lossy out.stdout)).getLastD [48, 39, 99]
    let s2 := (splitChar 39 s1).headD [48]
    Except.ok ((parseF32 (trimWs s2)).getD (F32.finite 0))

/-- The power function `pow2` agrees with the Mathlib integer power of 2. -/
theorem pow2_eq_zpow (e : ℤ) : pow2 e = (2 : ℚ) ^ e := by
  unfold pow2
  rcases le_or_lt 0 e with h | h
  · rw [if_pos h]
    push_cast
    rw [← zpow_natCast, Int.toNat_of_nonneg h]
  · rw [if_neg (not_le.mpr h)]
    push_cast
    rw [one_div, ← zpow_natCast, Int.toNat_of_nonneg (by omega), ← zpow_neg, neg_neg]

theorem pow2_pos (e : ℤ) : 0 < pow2 e := by
  rw [pow2_eq_zpow]; exact zpow_pos (by norm_num) e

theorem pow2_ne_zero (e : ℤ) : pow2 e ≠ 0 := ne_of_gt (pow2_pos e)

theorem pow2_add (a b : ℤ) : pow2 (a + b) = pow2 a * pow2 b := by
  rw [pow2_eq_zpow, pow2_eq_zpow, pow2_eq_zpow]; exact zpow_add₀ (by norm_num) a b

theorem pow2_mono {a b : ℤ} (h : a ≤ b) : pow2 a ≤ pow2 b := by
  rw [pow2_eq_zpow, pow2_eq_zpow]
  exact zpow_le_zpow_right₀ (by norm_num) h

theorem pow2_lt_iff {a b : ℤ} : pow2 a < pow2 b ↔ a < b := by
  rw [pow2_eq_zpow, pow2_eq_zpow]
  exact zpow_lt_zpow_iff_right₀ (by norm_num)

/-- On a natural exponent, `pow2` is the integer power of two, cast. -/
theorem pow2_natCast (a : ℕ) : pow2 (a : ℤ) = ((2 ^ a : ℤ) : ℚ) := by
  rw [pow2_eq_zpow]
  push_cast
  rw [zpow_natCast]

/-- On a nonnegative exponent, `pow2` is the integer power of two, cast. -/
theorem pow2_toNat {a : ℤ} (h : 0 ≤ a) : pow2 a = ((2 ^ a.toNat : ℤ) : ℚ) := by
  rw [← pow2_natCast, Int.toNat_of_nonneg h]

/-- Correctness of the fuel-driven logarithm. -/
theorem nlog2Aux_spec :
    ∀ fuel n, n ≤ fuel → 1 ≤ n →
      2 ^ nlog2Aux fuel n ≤ n ∧ n < 2 ^ (nlog2Aux fuel n + 1) := by
  intro fuel
  induction fuel with
  | zero => intro n h1 h2; omega
  | succ f ih =>
    intro n h1 h2
    unfold nlog2Aux
    by_cases hn : n ≤ 1
    · rw [if_pos hn]
      have : n = 1 := by omega
      subst this
      norm_num
    · rw [if_neg hn]
      have h3 : n / 2 ≤ f := by omega
      have h4 : 1 ≤ n / 2 := by omega
      obtain ⟨ha, hb⟩ := ih (n / 2) h3 h4
      have e1 : (2 : ℕ) ^ (nlog2Aux f (n / 2) + 1) = 2 * 2 ^ nlog2Aux f (n / 2) := by
        rw [pow_succ]; ring
      have e2 : (2 : ℕ) ^ (nlog2Aux f (n / 2) + 1 + 1) = 4 * 2 ^ nlog2Aux f (n / 2) := by
        rw [pow_succ, pow_succ]; ring
      omega

theorem nlog2_spec {n : ℕ} (h : 1 ≤ n) :
    2 ^ nlog2 n ≤ n ∧ n < 2 ^ (nlog2 n + 1) :=
  nlog2Aux_spec n n le_rfl h

/-- Absolute value of a rational in terms of numerator and denominator. -/
theorem abs_rat_eq (q : ℚ) :
    |q| = ((q.num.natAbs : ℕ) : ℚ) / ((q.den : ℕ) : ℚ) := by
  conv_lhs => rw [← Rat.num_div_den q]
  rw [abs_div]
  have h1 : |((q.num : ℤ) : ℚ)| = ((q.num.natAbs : ℕ) : ℚ) := by
    rw [Int.cast_natAbs, Int.cast_abs]
  have h2 : |((q.den : ℕ) : ℚ)| = ((q.den : ℕ) : ℚ) :=
    abs_of_pos (by exact_mod_cast q.den_pos)
  rw [h1, h2]

/-- The exponent search is correct: for nonzero `q`, `findExp q` is the
floor of the binary logarithm of `|q|`. -/
theorem findExp_spec {q : ℚ} (hq : q ≠ 0) :
    pow2 (findExp q) ≤ |q| ∧ |q| < pow2 (findExp q + 1) := by
  have hnum : q.num ≠ 0 := Rat.num_ne_zero.mpr hq
  have hn1 : 1 ≤ q.num.natAbs := by omega
  have hd1 : 1 ≤ q.den := q.den_pos
  obtain ⟨ha1, ha2⟩ := nlog2_spec hn1
  obtain ⟨hb1, hb2⟩ := nlog2_spec hd1
  have habs : |q| = ((q.num.natAbs : ℕ) : ℚ) / ((q.den : ℕ) : ℚ) := abs_rat_eq q
  have hdpos : (0 : ℚ) < ((q.den : ℕ) : ℚ) := by exact_mod_cast q.den_pos
  set a := nlog2 q.num.natAbs with hadef
  set b := nlog2 q.den with hbdef
  -- numeric bounds, cast into ℚ
  have hA1 : ((2 ^ a : ℕ) : ℚ) ≤ ((q.num.natAbs : ℕ) : ℚ) := by exact_mod_cast ha1
  have hA2 : ((q.num.natAbs : ℕ) : ℚ) < ((2 ^ (a + 1) : ℕ) : ℚ) := by exact_mod_cast ha2
  have hB1 : ((2 ^ b : ℕ) : ℚ) ≤ ((q.den : ℕ) : ℚ) := by exact_mod_cast hb1
  have hB2 : ((q.den : ℕ) : ℚ) < ((2 ^ (b + 1) : ℕ) : ℚ) := by exact_mod_cast hb2
  have hpa : ((2 ^ a : ℕ) : ℚ) = pow2 (a : ℤ) := by rw [pow2_natCast]; push_cast; ring
  have hpa1 : ((2 ^ (a + 1) : ℕ) : ℚ) = pow2 ((a : ℤ) + 1) := by
    rw [show ((a : ℤ) + 1) = ((a + 1 : ℕ) : ℤ) by push_cast; ring, pow2_natCast]
    push_cast; ring
  have hpb : ((2 ^ b : ℕ) : ℚ) = pow2 (b : ℤ) := by rw [pow2_natCast]; push_cast; ring
  have hpb1 : ((2 ^ (b + 1) : ℕ) : ℚ) = pow2 ((b : ℤ) + 1) := by
    rw [show ((b : ℤ) + 1) = ((b + 1 : ℕ) : ℤ) by push_cast; ring, pow2_natCast]
    push_cast; ring
  have hlow : pow2 ((a : ℤ) - b - 1) < |q| := by
    rw [habs, lt_div_iff₀ hdpos]
    calc pow2 ((a : ℤ) - b - 1) * ((q.den : ℕ) : ℚ)
        < pow2 ((a : ℤ) - b - 1) * pow2 ((b : ℤ) + 1) := by
          apply mul_lt_mul_of_pos_left _ (pow2_pos _)
          rw [← hpb1]; exact hB2
      _ = pow2 (a : ℤ) := by rw [← pow2_add]; ring_nf
      _ ≤ ((q.num.natAbs : ℕ) : ℚ) := by rw [← hpa]; exact hA1
  have hhigh : |q| < pow2 ((a : ℤ) - b + 1) := by
    rw [habs, div_lt_iff₀ hdpos]
    calc ((q.num.natAbs : ℕ) : ℚ)
        < pow2 ((a : ℤ) + 1) := by rw [← hpa1]; exact hA2
      _ = pow2 ((a : ℤ) - b + 1) * pow2 (b : ℤ) := by rw [← pow2_add]; ring_nf
      _ ≤ pow2 ((a : ℤ) - b + 1) * ((q.den : ℕ) : ℚ) := by
          apply mul_le_mul_of_nonneg_left _ (pow2_pos _).le
          rw [← hpb]; exact hB1
  have hfe : findExp q =
      if pow2 ((a : ℤ) - (b : ℤ)) ≤ |q| then (a : ℤ) - b else (a : ℤ) - b - 1 := rfl
  rw [hfe]
  by_cases hcase : pow2 ((a : ℤ) - (b : ℤ)) ≤ |q|
  · rw [if_pos hcase]
    exact ⟨hcase, hhigh⟩
  · rw [if_neg hcase]
    push_neg at hcase
    refine ⟨hlow.le, ?_⟩
    rw [show (a : ℤ) - b - 1 + 1 = (a : ℤ) - b by ring]
    exact hcase

/-- `roundQ` never rounds below the floor. -/
theorem floor_le_roundQ (x : ℚ) : ⌊x⌋ ≤ roundQ x := by
  unfold roundQ
  split_ifs <;> omega

/-- `roundQ` never rounds above the floor plus one. -/
theorem roundQ_le_floor_add_one (x : ℚ) : roundQ x ≤ ⌊x⌋ + 1 := by
  unfold roundQ
  split_ifs <;> omega

/-- Rounding an integer returns it unchanged. -/
theorem roundQ_intCast (n : ℤ) : roundQ ((n : ℤ) : ℚ) = n := by
  unfold roundQ
  rw [Int.floor_intCast]
  norm_num

/-- Round-to-nearest-even is monotone. -/
theorem roundQ_mono {x y : ℚ} (h : x ≤ y) : roundQ x ≤ roundQ y := by
  rcases lt_or_eq_of_le (Int.floor_mono h) with hf | hf
  · calc roundQ x ≤ ⌊x⌋ + 1 := roundQ_le_floor_add_one x
      _ ≤ ⌊y⌋ := by omega
      _ ≤ roundQ y := floor_le_roundQ y
  · unfold roundQ
    rw [← hf]
    split_ifs <;> first | omega | (exfalso; linarith)

theorem pow2_24 : pow2 (24 : ℤ) = ((2 ^ 24 : ℤ) : ℚ) := by decide

theorem pow2_23 : pow2 (23 : ℤ) = ((2 ^ 23 : ℤ) : ℚ) := by decide

theorem pow2_24n : pow2 (24 : ℤ) = ((2 ^ 24 : ℕ) : ℚ) := by decide

/-- On a nonnegative exponent, `pow2` is a rational power of two. -/
theorem pow2_toNat' {a : ℤ} (h : 0 ≤ a) : pow2 a = (2 : ℚ) ^ a.toNat := by
  rw [pow2_toNat h]
  push_cast
  ring

/-- Values at least 2^(-126) in magnitude are rounded at the normal
quantum: the clamp at the subnormal quantum is inactive. -/
theorem expF32_normal {q : ℚ} (h : pow2 (-126) ≤ |q|) :
    expF32 q = findExp q - 23 := by
  have hq : q ≠ 0 := by
    intro h0
    rw [h0, abs_zero] at h
    exact absurd h (not_le.mpr (pow2_pos _))
  obtain ⟨h1, h2⟩ := findExp_spec hq
  have hlt : pow2 (-126) < pow2 (findExp q + 1) := lt_of_le_of_lt h h2
  have := pow2_lt_iff.mp hlt
  unfold expF32
  omega

/-- Rounding a nonnegative value gives a nonnegative value. -/
theorem roundVal_nonneg {q : ℚ} (h : 0 ≤ q) : 0 ≤ roundVal q := by
  unfold roundVal
  split_ifs with h0
  · exact le_rfl
  · apply mul_nonneg _ (pow2_pos _).le
    have hz : (0 : ℚ) ≤ q / pow2 (expF32 q) := div_nonneg h (pow2_pos _).le
    have hf : (0 : ℤ) ≤ ⌊q / pow2 (expF32 q)⌋ := by
      rw [Int.le_floor]
      exact_mod_cast hz
    have hr : (0 : ℤ) ≤ roundQ (q / pow2 (expF32 q)) :=
      le_trans hf (floor_le_roundQ _)
    exact_mod_cast hr

/-- Rounding a positive normal value never exceeds the power of two just
above its binade. -/
theorem roundVal_le_pow2 {q : ℚ} (h : pow2 (-126) ≤ q) :
    roundVal q ≤ pow2 (findExp q + 1) := by
  have hq0 : 0 < q := lt_of_lt_of_le (pow2_pos _) h
  have he : expF32 q = findExp q - 23 :=
    expF32_normal (by rw [abs_of_pos hq0]; exact h)
  obtain ⟨h1, h2⟩ := findExp_spec (ne_of_gt hq0)
  rw [abs_of_pos hq0] at h1 h2
  have hzlt : q / pow2 (findExp q - 23) < pow2 24 := by
    rw [div_lt_iff₀ (pow2_pos _), ← pow2_add]
    rw [show (24 : ℤ) + (findExp q - 23) = findExp q + 1 by ring]
    exact h2
  have hfl : ⌊q / pow2 (findExp q - 23)⌋ < 2 ^ 24 := by
    have hf := Int.floor_le (q / pow2 (findExp q - 23))
    have hc : ((⌊q / pow2 (findExp q - 23)⌋ : ℤ) : ℚ) < ((2 ^ 24 : ℤ) : ℚ) := by
      rw [← pow2_24]
      exact lt_of_le_of_lt hf hzlt
    exact_mod_cast hc
  have hrq : roundQ (q / pow2 (findExp q - 23)) ≤ 2 ^ 24 := by
    have := roundQ_le_floor_add_one (q / pow2 (findExp q - 23))
    omega
  unfold roundVal
  rw [if_neg (ne_of_gt hq0), he]
  calc (roundQ (q / pow2 (findExp q - 23)) : ℚ) * pow2 (findExp q - 23)
      ≤ ((2 ^ 24 : ℤ) : ℚ) * pow2 (findExp q - 23) := by
        apply mul_le_mul_of_nonneg_right _ (pow2_pos _).le
        exact_mod_cast hrq
    _ = pow2 (findExp q + 1) := by
        rw [← pow2_24, ← pow2_add]
        congr 1
        ring

/-- Rounding a positive normal value never drops below the power of two at
the bottom of its binade. -/
theorem pow2_le_roundVal {q : ℚ} (h : pow2 (-126) ≤ q) :
    pow2 (findExp q) ≤ roundVal q := by
  have hq0 : 0 < q := lt_of_lt_of_le (pow2_pos _) h
  have he : expF32 q = findExp q - 23 :=
    expF32_normal (by rw [abs_of_pos hq0]; exact h)
  obtain ⟨h1, h2⟩ := findExp_spec (ne_of_gt hq0)
  rw [abs_of_pos hq0] at h1 h2
  have hzge : pow2 23 ≤ q / pow2 (findExp q - 23) := by
    rw [le_div_iff₀ (pow2_pos _), ← pow2_add]
    rw [show (23 : ℤ) + (findExp q - 23) = findExp q by ring]
    exact h1
  have hfl : (2 : ℤ) ^ 23 ≤ ⌊q / pow2 (findExp q - 23)⌋ := by
    rw [Int.le_floor]
    rw [show (((2 : ℤ) ^ 23 : ℤ) : ℚ) = pow2 23 from pow2_23.symm]
    exact hzge
  have hrq : (2 : ℤ) ^ 23 ≤ roundQ (q / pow2 (findExp q - 23)) :=
    le_trans hfl (floor_le_roundQ _)
  unfold roundVal
  rw [if_neg (ne_of_gt hq0), he]
  calc pow2 (findExp q) = ((2 ^ 23 : ℤ) : ℚ) * pow2 (findExp q - 23) := by
        rw [← pow2_23, ← pow2_add]
        congr 1
        ring
    _ ≤ (roundQ (q / pow2 (findExp q - 23)) : ℚ) * pow2 (findExp q - 23) := by
        apply mul_le_mul_of_nonneg_right _ (pow2_pos _).le
        exact_mod_cast hrq

/-- Rounding a positive normal value at most doubles it. -/
theorem roundVal_le_two_mul {q : ℚ} (h : pow2 (-126) ≤ q) : roundVal q ≤ 2 * q := by
  have hq0 : 0 < q := lt_of_lt_of_le (pow2_pos _) h
  obtain ⟨h1, _⟩ := findExp_spec (ne_of_gt hq0)
  rw [abs_of_pos hq0] at h1
  calc roundVal q ≤ pow2 (findExp q + 1) := roundVal_le_pow2 h
    _ = 2 * pow2 (findExp q) := by
        rw [show findExp q + 1 = 1 + findExp q by ring, pow2_add,
          show pow2 (1 : ℤ) = 2 from by decide]
    _ ≤ 2 * q := by linarith

/-- Binary32 rounding is monotone on positive normal values. -/
theorem roundVal_mono {x y : ℚ} (h126 : pow2 (-126) ≤ x) (hxy : x ≤ y) :
    roundVal x ≤ roundVal y := by
  have hx0 : 0 < x := lt_of_lt_of_le (pow2_pos _) h126
  have hy0 : 0 < y := lt_of_lt_of_le hx0 hxy
  have hy126 : pow2 (-126) ≤ y := le_trans h126 hxy
  have hex : expF32 x = findExp x - 23 :=
    expF32_normal (by rw [abs_of_pos hx0]; exact h126)
  have hey : expF32 y = findExp y - 23 :=
    expF32_normal (by rw [abs_of_pos hy0]; exact hy126)
  obtain ⟨hx1, hx2⟩ := findExp_spec (ne_of_gt hx0)
  obtain ⟨hy1, hy2⟩ := findExp_spec (ne_of_gt hy0)
  rw [abs_of_pos hx0] at hx1 hx2
  rw [abs_of_pos hy0] at hy1 hy2
  have hF : findExp x ≤ findExp y := by
    have hlt : pow2 (findExp x) < pow2 (findExp y + 1) :=
      lt_of_le_of_lt (le_trans hx1 hxy) hy2
    have := pow2_lt_iff.mp hlt
    omega
  rcases eq_or_lt_of_le hF with hFeq | hFlt
  · unfold roundVal
    rw [if_neg (ne_of_gt hx0), if_neg (ne_of_gt hy0), hex, hey, ← hFeq]
    apply mul_le_mul_of_nonneg_right _ (pow2_pos _).le
    have hdiv : x / pow2 (findExp x - 23) ≤ y / pow2 (findExp x - 23) :=
      (div_le_div_iff_of_pos_right (pow2_pos _)).mpr hxy
    exact_mod_cast roundQ_mono hdiv
  · calc roundVal x ≤ pow2 (findExp x + 1) := roundVal_le_pow2 h126
      _ ≤ pow2 (findExp y) := pow2_mono (by omega)
      _ ≤ roundVal y := pow2_le_roundVal hy126

/-- A dyadic value with at most 24 significant bits and quantum at least
2^(-149) is rounded to itself. -/
theorem roundVal_exact {q : ℚ} {k e : ℤ} (hqk : q = (k : ℚ) * pow2 e) (hk0 : k ≠ 0)
    (hk : k.natAbs < 2 ^ 24) (he : -149 ≤ e) : roundVal q = q := by
  have hq0 : q ≠ 0 := by
    rw [hqk]
    exact mul_ne_zero (Int.cast_ne_zero.mpr hk0) (pow2_ne_zero e)
  have habs : |q| = ((k.natAbs : ℕ) : ℚ) * pow2 e := by
    rw [hqk, abs_mul, abs_of_pos (pow2_pos e), Int.cast_natAbs, Int.cast_abs]
  have hFlt : findExp q < 24 + e := by
    apply pow2_lt_iff.mp
    calc pow2 (findExp q) ≤ |q| := (findExp_spec hq0).1
      _ < pow2 (24 + e) := by
          rw [habs, pow2_add]
          apply mul_lt_mul_of_pos_right _ (pow2_pos e)
          rw [pow2_24n]
          exact_mod_cast hk
  have hee : expF32 q ≤ e := by
    unfold expF32
    omega
  set E := expF32 q with hE
  have hpos : (0 : ℤ) ≤ e - E := by omega
  have hdiv : q / pow2 E = ((k * 2 ^ (e - E).toNat : ℤ) : ℚ) := by
    rw [div_eq_iff (pow2_ne_zero _)]
    push_cast
    rw [← pow2_toNat' hpos, mul_assoc, ← pow2_add,
      show e - E + E = e by ring]
    exact hqk
  unfold roundVal
  rw [if_neg hq0, ← hE, hdiv, roundQ_intCast]
  push_cast
  rw [← pow2_toNat' hpos, mul_assoc, ← pow2_add,
    show e - E + E = e by ring, ← hqk]

/-- A representable temperature strictly between 40 and 60 is an integer
multiple of the quantum 2^(-18) of that binade. -/
theorem repr_scaled {q : ℚ} (h : IsReprQ q) (h40 : 40 < q) (h60 : q < 60) :
    ∃ k : ℤ, q = (k : ℚ) * pow2 (-18) ∧ 10485760 < k ∧ k < 15728640 := by
  obtain ⟨n, e, hq, hn, he⟩ := h
  have hq0 : (0 : ℚ) < q := lt_trans (by norm_num) h40
  have he18 : -18 ≤ e := by
    by_contra hc
    push_neg at hc
    have habs : |q| = ((n.natAbs : ℕ) : ℚ) * pow2 e := by
      rw [hq, abs_mul, abs_of_pos (pow2_pos e), Int.cast_natAbs, Int.cast_abs]
    have hb : |q| < pow2 5 := by
      rw [habs]
      calc ((n.natAbs : ℕ) : ℚ) * pow2 e ≤ ((n.natAbs : ℕ) : ℚ) * pow2 (-19) := by
            apply mul_le_mul_of_nonneg_left (pow2_mono (by omega)) (by positivity)
        _ < ((2 ^ 24 : ℕ) : ℚ) * pow2 (-19) := by
            apply mul_lt_mul_of_pos_right _ (pow2_pos _)
            exact_mod_cast hn
        _ = pow2 5 := by
            rw [← pow2_24n, ← pow2_add]
            congr 1
    have h40le : (40 : ℚ) ≤ |q| := by
      rw [abs_of_pos hq0]
      linarith
    have h32 : pow2 (5 : ℤ) = 32 := by decide
    linarith
  refine ⟨n * 2 ^ (e + 18).toNat, ?_, ?_, ?_⟩
  · rw [hq]
    push_cast
    rw [← pow2_toNat' (by omega : (0 : ℤ) ≤ e + 18), mul_assoc, ← pow2_add,
      show e + 18 + -18 = e by ring]
  · have hform : ((n * 2 ^ (e + 18).toNat : ℤ) : ℚ) = q * 262144 := by
      rw [hq]
      push_cast
      rw [← pow2_toNat' (by omega : (0 : ℤ) ≤ e + 18)]
      rw [show pow2 (e + 18) = pow2 e * pow2 18 from by rw [← pow2_add]]
      rw [show pow2 (18 : ℤ) = 262144 from by decide]
      ring
    have : (10485760 : ℚ) < ((n * 2 ^ (e + 18).toNat : ℤ) : ℚ) := by
      rw [hform]
      linarith
    exact_mod_cast this
  · have hform : ((n * 2 ^ (e + 18).toNat : ℤ) : ℚ) = q * 262144 := by
      rw [hq]
      push_cast
      rw [← pow2_toNat' (by omega : (0 : ℤ) ≤ e + 18)]
      rw [show pow2 (e + 18) = pow2 e * pow2 18 from by rw [← pow2_add]]
      rw [show pow2 (18 : ℤ) = 262144 from by decide]
      ring
    have : ((n * 2 ^ (e + 18).toNat : ℤ) : ℚ) < 15728640 := by
      rw [hform]
      linarith
    exact_mod_cast this

/-- The saturating cast is monotone on finite values. -/
theorem castU8_finite_mono {a b : ℚ} (h : a ≤ b) :
    castU8 (F32.finite a) ≤ castU8 (F32.finite b) := by
  show (if a ≤ 0 then 0 else min 255 (Int.toNat ⌊a⌋)) ≤
    (if b ≤ 0 then 0 else min 255 (Int.toNat ⌊b⌋))
  split_ifs with ha hb hb
  · exact le_rfl
  · exact Nat.zero_le _
  · exact absurd (le_trans h hb) ha
  · exact min_le_min le_rfl (Int.toNat_le_toNat (Int.floor_mono h))

/-- In the open band between the clamps, `get_pwm` takes its third branch. -/
theorem get_pwm_interior (t : F32) (h1 : flt (F32.finite 40) t = true)
    (h2 : flt t (F32.finite 60) = true) :
    get_pwm t = castU8 (fceil (fmul (fsub t (F32.finite 40)) (F32.finite 12.75))) := by
  cases t with
  | nan => simp [flt] at h1
  | inf s => cases s <;> simp_all [flt]
  | finite q =>
    have hq1 : (40 : ℚ) < q := by simpa [flt] using h1
    have hq2 : q < 60 := by simpa [flt] using h2
    have hle1 : fle (F32.finite q) (F32.finite 40) = false := by
      simp [fle]; linarith
    have hle2 : fle (F32.finite 60) (F32.finite q) = false := by
      simp [fle]; linarith
    simp [get_pwm, hle1, hle2]

/-- On a representable temperature in the band, the subtraction is exact
and the product rounds to a finite value; the product is moreover a
positive normal value. -/
theorem interior_eval {q : ℚ} {k : ℤ} (hk : q = (k : ℚ) * pow2 (-18))
    (hl : 10485760 < k) (hu : k < 15728640) :
    fmul (fsub (F32.finite q) (F32.finite 40)) (F32.finite 12.75) =
      F32.finite (roundVal ((q - 40) * (12.75 : ℚ))) ∧
      pow2 (-126) ≤ (q - 40) * (12.75 : ℚ) := by
  have h40 : (40 : ℚ) = (10485760 : ℚ) * pow2 (-18) := by decide
  have hsubform : q - 40 = ((k - 10485760 : ℤ) : ℚ) * pow2 (-18) := by
    rw [hk, h40]
    push_cast
    ring
  have hp18pos : (0 : ℚ) < pow2 (-18) := pow2_pos _
  have hsub_pos : (0 : ℚ) < q - 40 := by
    rw [hsubform]
    apply mul_pos _ hp18pos
    exact_mod_cast (by omega : (0 : ℤ) < k - 10485760)
  have hsub_lb : pow2 (-18) ≤ q - 40 := by
    rw [hsubform]
    have h1k : (1 : ℚ) ≤ ((k - 10485760 : ℤ) : ℚ) := by
      exact_mod_cast (by omega : (1 : ℤ) ≤ k - 10485760)
    nlinarith
  have hsub_ub : q - 40 < 20 := by
    have h20 : (20 : ℚ) = (5242880 : ℚ) * pow2 (-18) := by decide
    rw [hsubform, h20]
    apply mul_lt_mul_of_pos_right _ hp18pos
    exact_mod_cast (by omega : (k - 10485760 : ℤ) < 5242880)
  have hmaxF : (510 : ℚ) ≤ maxF := by decide
  have hmaxFpos : (0 : ℚ) < maxF := by linarith
  have hsub_exact : roundVal (q - 40) = q - 40 := by
    apply roundVal_exact hsubform (by omega)
    · have : (k - 10485760 : ℤ).natAbs < 5242880 := by omega
      omega
    · norm_num
  have hsub : fsub (F32.finite q) (F32.finite 40) = F32.finite (q - 40) := by
    show roundF32 (q - 40) = F32.finite (q - 40)
    unfold roundF32
    rw [hsub_exact, if_neg (by push_neg; linarith), if_neg (by push_neg; linarith)]
  have hxlow : pow2 (-126) ≤ (q - 40) * (12.75 : ℚ) := by
    have hx18 : pow2 (-18 : ℤ) * 1 ≤ (q - 40) * (12.75 : ℚ) :=
      mul_le_mul hsub_lb (by norm_num) (by norm_num) hsub_pos.le
    have := pow2_mono (by norm_num : (-126 : ℤ) ≤ -18)
    linarith
  have hx_ub : (q - 40) * (12.75 : ℚ) < 255 := by nlinarith
  have hx_nonneg : (0 : ℚ) ≤ (q - 40) * (12.75 : ℚ) := by positivity
  have hround_ub : roundVal ((q - 40) * (12.75 : ℚ)) ≤ 510 := by
    have := roundVal_le_two_mul hxlow
    linarith
  have hround_lb : (0 : ℚ) ≤ roundVal ((q - 40) * (12.75 : ℚ)) :=
    roundVal_nonneg hx_nonneg
  refine ⟨?_, hxlow⟩
  rw [hsub]
  show roundF32 ((q - 40) * (12.75 : ℚ)) = F32.finite (roundVal ((q - 40) * (12.75 : ℚ)))
  unfold roundF32
  rw [if_neg (by push_neg; linarith), if_neg (by push_neg; linarith)]

/-- C1: for every temperature `t` with `40.0 < t < 60.0` (binary32
comparisons), `get_pwm t` equals `ceil((t - 40.0) * 12.75)` computed in
binary32 arithmetic and then narrowed to an unsigned 8-bit integer. -/
theorem C1_pwm_interior (t : F32) (h1 : flt (F32.finite 40) t = true)
    (h2 : flt t (F32.finite 60) = true) :
    get_pwm t = castU8 (fceil (fmul (fsub t (F32.finite 40)) (F32.finite 12.75))) :=
  get_pwm_interior t h1 h2

/-- Witness for C1 at the concrete temperature 50.0. -/
theorem C1_pwm_interior_witness :
    flt (F32.finite 40) (F32.finite 50) = true ∧
      flt (F32.finite 50) (F32.finite 60) = true ∧
      get_pwm (F32.finite 50) =
        castU8 (fceil (fmul (fsub (F32.finite 50) (F32.finite 40)) (F32.finite 12.75))) :=
  ⟨by decide, by decide, C1_pwm_interior (F32.finite 50) (by decide) (by decide)⟩

/-- C2: for every temperature `t ≤ 40.0` (binary32 comparison, hence also
for `t = 40.0` exactly), `get_pwm t = 0`. -/
theorem C2_pwm_low (t : F32) (h : fle t (F32.finite 40) = true) : get_pwm t = 0 := by
  simp [get_pwm, h]

/-- Witness for C2 at the boundary temperature 40.0 exactly. -/
theorem C2_pwm_low_witness :
    fle (F32.finite 40) (F32.finite 40) = true ∧ get_pwm (F32.finite 40) = 0 :=
  ⟨by decide, C2_pwm_low (F32.finite 40) (by decide)⟩

/-- C3: for every temperature `t ≥ 60.0` (binary32 comparison, hence also
for `t = 60.0` exactly), `get_pwm t = 255`. -/
theorem C3_pwm_high (t : F32) (h : fle (F32.finite 60) t = true) : get_pwm t = 255 := by
  cases t with
  | nan => simp [fle] at h
  | inf s =>
    have hs : s = false := by simpa [fle] using h
    subst hs
    simp [get_pwm, fle]
  | finite q =>
    have hq : (60 : ℚ) ≤ q := by simpa [fle] using h
    have h1 : fle (F32.finite q) (F32.finite 40) = false := by simp [fle]; linarith
    have h2 : fle (F32.finite 60) (F32.finite q) = true := by simp [fle]; linarith
    simp [get_pwm, h1, h2]

/-- Witness for C3 at the boundary temperature 60.0 exactly. -/
theorem C3_pwm_high_witness :
    fle (F32.finite 60) (F32.finite 60) = true ∧ get_pwm (F32.finite 60) = 255 :=
  ⟨by decide, C3_pwm_high (F32.finite 60) (by decide)⟩

/-- C4: `get_pwm` is monotonically non-decreasing on the open interval
(40.0, 60.0): for all representable binary32 temperatures `t1 ≤ t2` in
that band, `get_pwm t1 ≤ get_pwm t2`. -/
theorem C4_pwm_mono (t1 t2 : F32) (hr1 : t1.IsRepr) (hr2 : t2.IsRepr)
    (h1 : flt (F32.finite 40) t1 = true) (h12 : fle t1 t2 = true)
    (h2 : flt t2 (F32.finite 60) = true) : get_pwm t1 ≤ get_pwm t2 := by
  cases t1 with
  | nan => simp [flt] at h1
  | inf s =>
    cases t2 with
    | nan => simp [fle] at h12
    | inf s2 => cases s <;> cases s2 <;> simp_all [flt, fle]
    | finite q2 => cases s <;> simp_all [flt, fle]
  | finite q1 =>
    cases t2 with
    | nan => simp [fle] at h12
    | inf s2 => cases s2 <;> simp_all [flt, fle]
    | finite q2 =>
      have hq1 : (40 : ℚ) < q1 := by simpa [flt] using h1
      have hq12 : q1 ≤ q2 := by simpa [fle] using h12
      have hq2 : q2 < 60 := by simpa [flt] using h2
      have hrq1 : IsReprQ q1 := hr1
      have hrq2 : IsReprQ q2 := hr2
      obtain ⟨k1, hk1, hk1l, hk1u⟩ := repr_scaled hrq1 hq1 (lt_of_le_of_lt hq12 hq2)
      obtain ⟨k2, hk2, hk2l, hk2u⟩ := repr_scaled hrq2 (lt_of_lt_of_le hq1 hq12) hq2
      obtain ⟨hm1, hx1low⟩ := interior_eval hk1 hk1l hk1u
      obtain ⟨hm2, hx2low⟩ := interior_eval hk2 hk2l hk2u
      rw [get_pwm_interior (F32.finite q1) (by simp [flt]; linarith)
          (by simp [flt]; linarith),
        get_pwm_interior (F32.finite q2) (by simp [flt]; linarith)
          (by simp [flt]; linarith),
        hm1, hm2]
      have hxle : (q1 - 40) * (12.75 : ℚ) ≤ (q2 - 40) * (12.75 : ℚ) := by
        apply mul_le_mul_of_nonneg_right _ (by norm_num)
        linarith
      have hv : roundVal ((q1 - 40) * (12.75 : ℚ)) ≤ roundVal ((q2 - 40) * (12.75 : ℚ)) :=
        roundVal_mono hx1low hxle
      show castU8 (F32.finite ((⌈roundVal ((q1 - 40) * (12.75 : ℚ))⌉ : ℤ) : ℚ)) ≤
        castU8 (F32.finite ((⌈roundVal ((q2 - 40) * (12.75 : ℚ))⌉ : ℤ) : ℚ))
      exact castU8_finite_mono (Int.cast_le.mpr (Int.ceil_mono hv))

/-- Witness for C4 at the representable temperatures 45.0 and 50.0. -/
theorem C4_pwm_mono_witness :
    (F32.finite 45).IsRepr ∧ (F32.finite 50).IsRepr ∧
      flt (F32.finite 40) (F32.finite 45) = true ∧
      fle (F32.finite 45) (F32.finite 50) = true ∧
      flt (F32.finite 50) (F32.finite 60) = true ∧
      get_pwm (F32.finite 45) ≤ get_pwm (F32.finite 50) :=
  ⟨⟨45, 0, by decide, by decide, by decide⟩,
   ⟨50, 0, by decide, by decide, by decide⟩,
   by decide, by decide, by decide,
   C4_pwm_mono (F32.finite 45) (F32.finite 50)
     ⟨45, 0, by decide, by decide, by decide⟩
     ⟨50, 0, by decide, by decide, by decide⟩
     (by decide) (by decide) (by decide)⟩

/-- C5: the known samples hold: `get_pwm 50.0 = 128`, and `get_pwm` of the
binary32 value nearest to 59.9 is 254. -/
theorem C5_pwm_samples :
    get_pwm (F32.finite 50) = 128 ∧ get_pwm (roundF32 (599 / 10)) = 254 := by
  constructor <;> decide

/-- C10: `get_pwm` is total on every binary32 input, and on the non-finite
values the saturating narrowing gives `get_pwm (+inf) = 255`,
`get_pwm (-inf) = 0` and `get_pwm NaN = 0` (both clamp comparisons are
false on NaN, and the cast maps NaN to 0). -/
theorem C10_pwm_nonfinite :
    get_pwm (F32.inf false) = 255 ∧ get_pwm (F32.inf true) = 0 ∧
      get_pwm F32.nan = 0 := by
  decide

/-- C6: whenever the extracted text of the captured standard output fails
to parse as a number, `get_temp` succeeds with the sentinel 0.0 instead of
propagating an error; in particular on the exact output `garbage` and on
empty output, whatever stderr and exit status are. -/
theorem C6_temp_failsoft :
    (∀ out : ProcOutput,
        parseF32 (trimWs ((splitChar 39 ((splitChar 61 (utf8Lossy out.stdout)).getLastD
          [48, 39, 99])).headD [48])) = none →
          get_temp (Except.ok out) = Except.ok (F32.finite 0)) ∧
      (∀ err status,
        get_temp (Except.ok ⟨[103, 97, 114, 98, 97, 103, 101], err, status⟩) =
          Except.ok (F32.finite 0)) ∧
      ∀ err status, get_temp (Except.ok ⟨[], err, status⟩) = Except.ok (F32.finite 0) := by
  refine ⟨fun out h => ?_, fun _ _ => rfl, fun _ _ => rfl⟩
  show Except.ok ((parseF32 (trimWs ((splitChar 39 ((splitChar 61
    (utf8Lossy out.stdout)).getLastD [48, 39, 99])).headD [48]))).getD (F32.finite 0)) =
      Except.ok (F32.finite 0)
  rw [h]
  rfl

/-- Witness for C6 on the concrete output `garbage`. -/
theorem C6_temp_failsoft_witness :
    parseF32 (trimWs ((splitChar 39 ((splitChar 61
        (utf8Lossy [103, 97, 114, 98, 97, 103, 101])).getLastD [48, 39, 99])).headD
        [48])) = none ∧
      get_temp (Except.ok ⟨[103, 97, 114, 98, 97, 103, 101], [], 0⟩) =
        Except.ok (F32.finite 0) :=
  ⟨by decide, C6_temp_failsoft.1 ⟨[103, 97, 114, 98, 97, 103, 101], [], 0⟩ (by decide)⟩

/-- C7: `get_temp` parses the captured standard output by splitting on `=`
and taking the last segment, splitting that on the single-quote character
and taking the first segment, trimming white space and parsing as a float
(0.0 on failure); in particular the raw output `temp=48.3'C` followed by a
newline yields the binary32 value nearest to 48.3. -/
theorem C7_temp_pipeline :
    (∀ out : ProcOutput,
        get_temp (Except.ok out) =
          Except.ok ((parseF32 (trimWs ((splitChar 39 ((splitChar 61
            (utf8Lossy out.stdout)).getLastD [48, 39, 99])).headD [48]))).getD
            (F32.finite 0))) ∧
      get_temp (Except.ok ⟨[116, 101, 109, 112, 61, 52, 56, 46, 51, 39, 67, 10], [], 0⟩) =
        Except.ok (roundF32 (483 / 10)) :=
  ⟨fun _ => rfl, by decide⟩

/-- C8: `get_temp` fails exactly when the launch failed: a launch error is
passed through unchanged, and every captured output — parsable or not —
produces a success value. -/
theorem C8_temp_error_iff_launch :
    (∀ e : LaunchError, get_temp (Except.error e) = Except.error e) ∧
      ∀ out : ProcOutput, ∃ v : F32, get_temp (Except.ok out) = Except.ok v :=
  ⟨fun _ => rfl, fun _ => ⟨_, rfl⟩⟩

/-- C9: the result of `get_temp` depends only on the captured standard
output bytes — two outputs with equal stdout give equal results whatever
their stderr and exit status — and every captured output, including one
with a non-zero exit status, yields a success. -/
theorem C9_temp_ignores_stderr_status :
    (∀ o1 o2 : ProcOutput, o1.stdout = o2.stdout →
        get_temp (Except.ok o1) = get_temp (Except.ok o2)) ∧
      ∀ out : ProcOutput, ∃ v : F32, get_temp (Except.ok out) = Except.ok v := by
  constructor
  · intro o1 o2 h
    simp [get_temp, h]
  · intro out
    exact ⟨_, rfl⟩

/-- Witness for C9: equal stdout, different stderr and exit status. -/
theorem C9_temp_ignores_stderr_status_witness :
    get_temp (Except.ok ⟨[116, 101], [], 0⟩) = get_temp (Except.ok ⟨[116, 101], [50], 1⟩) :=
  C9_temp_ignores_stderr_status.1 ⟨[116, 101], [], 0⟩ ⟨[116, 101], [50], 1⟩ rfl
